/-
Verification of `quarkchain/testnet/fund_testnet.py`.

The script is shallowly embedded: Python strings become `List Char`,
Python `int` becomes `Nat`/`Int`, fallible operations return `Option`,
and the stateful retry/poll loops become recursive functions over the
finite list of external responses they consume, producing explicit
traces of their actions.
-/
import Mathlib

namespace FundTestnet

/-! ### Hex parsing (`int(s, 16)`) -/

/-- One hex digit, by character code: `0`-`9`, `a`-`f`, `A`-`F`. -/
def hexDigit? (c : Char) : Option Nat :=
  if 48 ≤ c.toNat ∧ c.toNat ≤ 57 then some (c.toNat - 48)
  else if 97 ≤ c.toNat ∧ c.toNat ≤ 102 then some (c.toNat - 87)
  else if 65 ≤ c.toNat ∧ c.toNat ≤ 70 then some (c.toNat - 55)
  else none

/-- Accumulate one character of a base-16 literal; a non-digit poisons the
accumulator. -/
def hexStep (acc : Option Nat) (c : Char) : Option Nat :=
  match acc, hexDigit? c with
  | some a, some d => some (a * 16 + d)
  | _, _ => none

/-- Value of a nonempty all-hex-digit string. -/
def hexCore? (s : List Char) : Option Nat :=
  match s with
  | [] => none
  | _ => s.foldl hexStep (some 0)

/-- Python `int(s, 16)`: an optional `0x`/`0X` prefix followed by hex digits;
anything else raises (`none`). (Python additionally strips whitespace and
accepts a sign; the inputs of this script never use either.) -/
def hexToNat? (s : List Char) : Option Nat :=
  match s with
  | '0' :: 'x' :: rest => hexCore? rest
  | '0' :: 'X' :: rest => hexCore? rest
  | _ => hexCore? s

theorem hexDigit?_lt {c : Char} {d : Nat} (h : hexDigit? c = some d) : d < 16 := by
  unfold hexDigit? at h
  split_ifs at h with h1 h2 h3 <;> simp_all <;> omega

theorem foldl_hexStep_none (s : List Char) : s.foldl hexStep none = none := by
  induction s with
  | nil => rfl
  | cons c cs ih => simpa [hexStep] using ih

theorem foldl_hexStep_lt : ∀ (s : List Char) (a v : Nat),
    s.foldl hexStep (some a) = some v → v < (a + 1) * 16 ^ s.length := by
  intro s
  induction s with
  | nil =>
    intro a v h
    simp only [List.foldl_nil, Option.some.injEq] at h
    subst h
    have := Nat.lt_succ_self a
    simp only [List.length_nil, pow_zero, Nat.mul_one]
    exact this
  | cons c cs ih =>
    intro a v h
    simp only [List.foldl_cons] at h
    cases hd : hexDigit? c with
    | none =>
      rw [show hexStep (some a) c = none by simp [hexStep, hd],
        foldl_hexStep_none] at h
      exact absurd h (by simp)
    | some d =>
      rw [show hexStep (some a) c = some (a * 16 + d) by simp [hexStep, hd]] at h
      have hlt := ih (a * 16 + d) v h
      have hd16 : d < 16 := hexDigit?_lt hd
      have : (a * 16 + d + 1) * 16 ^ cs.length ≤ (a + 1) * 16 ^ (c :: cs).length := by
        have h1 : a * 16 + d + 1 ≤ (a + 1) * 16 := by omega
        calc (a * 16 + d + 1) * 16 ^ cs.length
            ≤ (a + 1) * 16 * 16 ^ cs.length := Nat.mul_le_mul_right _ h1
          _ = (a + 1) * 16 ^ (c :: cs).length := by
              rw [List.length_cons, pow_succ]; ring
      exact lt_of_lt_of_le hlt this

theorem hexCore?_lt {s : List Char} {v : Nat} (h : hexCore? s = some v) :
    v < 16 ^ s.length := by
  unfold hexCore? at h
  match s, h with
  | c :: cs, h =>
    have h1 := foldl_hexStep_lt (c :: cs) 0 v h
    simp only [Nat.zero_add, Nat.one_mul] at h1
    exact h1

theorem hexToNat?_lt {s : List Char} {v : Nat} (h : hexToNat? s = some v) :
    v < 16 ^ s.length := by
  unfold hexToNat? at h
  split at h
  · exact lt_of_lt_of_le (hexCore?_lt h)
      (Nat.pow_le_pow_right (by norm_num) (by simp; omega))
  · exact lt_of_lt_of_le (hexCore?_lt h)
      (Nat.pow_le_pow_right (by norm_num) (by simp; omega))
  · exact hexCore?_lt h

/-! ### Shard assignment (`fund`, lines 117-119 and 131-132) -/

/-- Python `addr[-8:]`: the last (at most) 8 characters. -/
def last8 (s : List Char) : List Char := s.drop (s.length - 8)

/-- `shard = int(addr[-8:], 16) & (shardSize - 1)` from `fund`. `none` when
the hex parse raises. -/
def shardOf? (addr : List Char) (shardSize : Nat) : Option Nat :=
  (hexToNat? (last8 addr)).map (fun v => v &&& (shardSize - 1))

theorem last8_length_le (s : List Char) : (last8 s).length ≤ 8 := by
  simp [last8]; omega

theorem hexToNat?_last8_lt_two_pow_32 {addr : List Char} {v : Nat}
    (h : hexToNat? (last8 addr) = some v) : v < 2 ^ 32 := by
  have h1 : v < 16 ^ (last8 addr).length := hexToNat?_lt h
  have h2 : (16 : Nat) ^ (last8 addr).length ≤ 16 ^ 8 :=
    Nat.pow_le_pow_right (by norm_num) (last8_length_le addr)
  have h3 : (16 : Nat) ^ 8 = 2 ^ 32 := by norm_num
  omega

/-- Claim C1: for a power-of-two shard count (as reported by `networkInfo`),
the shard assigned in `fund` to a (hex-parseable) address equals the lowest
32 bits of the integer value of the address's last 8 hex digits, masked with
`shardCount - 1`; the assignment is a pure function of the address (stable
within a run) and always lands in `[0, shardCount)`. -/
theorem C1_shard_assignment (addr : List Char) (k s : Nat)
    (h : shardOf? addr (2 ^ k) = some s) :
    (∀ v, hexToNat? (last8 addr) = some v → s = (v % 2 ^ 32) &&& (2 ^ k - 1)) ∧
    (∀ s2, shardOf? addr (2 ^ k) = some s2 → s2 = s) ∧
    s < 2 ^ k := by
  obtain ⟨v0, hv0, hs⟩ := Option.map_eq_some'.mp h
  refine ⟨?_, ?_, ?_⟩
  · intro v hv
    rw [hv0] at hv
    obtain rfl : v0 = v := by injection hv
    rw [← hs, Nat.mod_eq_of_lt (hexToNat?_last8_lt_two_pow_32 hv0)]
  · intro s2 h2
    rw [h] at h2
    injection h2 with h2
    exact h2.symm
  · rw [← hs, Nat.and_pow_two_sub_one_eq_mod]
    exact Nat.mod_lt _ (Nat.pos_pow_of_pos k (by norm_num))

/-- Concrete instance of `C1_shard_assignment`: address `"ab"` (value `0xab`)
with shard count `2 ^ 2 = 4` is assigned shard `3 = 0xab & 3`. -/
theorem C1_shard_assignment_witness :
    (∀ v, hexToNat? (last8 ("ab".data)) = some v → 3 = (v % 2 ^ 32) &&& (2 ^ 2 - 1)) ∧
    (∀ s2, shardOf? ("ab".data) (2 ^ 2) = some s2 → s2 = 3) ∧
    3 < 2 ^ 2 :=
  C1_shard_assignment ("ab".data) 2 3 (by decide)

/-! ### RPC client retry loop (`Endpoint.__sendRequest`, lines 25-34)

`client.request(*args)` is opaque third-party code; each attempt of the
identical call either raises (any transport-level `Exception`) or returns a
response value.  A response may itself be an application-level RPC error
object; `__sendRequest` never inspects it.  The loop is driven by the finite
list of outcomes the environment produces for the successive attempts. -/

/-- A response value: either a proper result or an application-level RPC
error returned by the endpoint. -/
inductive RpcResult where
  | ok (v : Nat) : RpcResult
  | rpcError (e : Nat) : RpcResult
  deriving DecidableEq

/-- Outcome of one attempt of `client.request`: a raised transport-level
exception, or a returned response. -/
inductive RpcOutcome where
  | transportError : RpcOutcome
  | response (v : RpcResult) : RpcOutcome
  deriving DecidableEq

/-- The `while True` retry loop of `Endpoint.__sendRequest`: on an exception
sleep and retry the identical call, on a returned response stop and hand it
to the caller.  Returns the response together with the number of retries
(sleeps) taken; `none` when the outcome list is exhausted with the loop
still retrying. -/
def sendRequestRun : List RpcOutcome → Option (RpcResult × Nat)
  | [] => none
  | RpcOutcome.transportError :: rest =>
    (sendRequestRun rest).map (fun p => (p.1, p.2 + 1))
  | RpcOutcome.response v :: _ => some (v, 0)

/-- `await asyncio.sleep(1 + random.randint(0, 5))`: the delay slept before a
retry, as a function of the random draw `r` (`random.randint(0, 5)` returns
an integer `0 ≤ r ≤ 5`, bounds inclusive). -/
def retryDelay (r : Nat) : Nat := 1 + r

/-- Claim C2, counterexample: the claim asserts every retry delay lies in
`[1, 6)`, but the draw `r = 5` (produced by `random.randint(0, 5)`, whose
upper bound is inclusive) yields a delay of exactly `6`, which is not less
than `6`. -/
theorem C2_delay_counterexample :
    5 ≤ 5 ∧ retryDelay 5 = 6 ∧ ¬(1 ≤ retryDelay 5 ∧ retryDelay 5 < 6) := by
  decide

/-- Claim C2 (amended): a transport-level failure causes the identical call
to be retried indefinitely — for any number `n` of consecutive transport
errors the loop sleeps `n` times and returns the first response — with each
retry preceded by a randomized delay drawn uniformly from the integers
`1..6` inclusive; any returned response, in particular an application-level
RPC error, is handed to the caller immediately and never retried (the
outcomes after the first response are never consumed). -/
theorem C2_retry_behavior (n r : Nat) (hr : r ≤ 5) (v : RpcResult)
    (rest : List RpcOutcome) :
    sendRequestRun
        (List.replicate n RpcOutcome.transportError ++ RpcOutcome.response v :: rest)
      = some (v, n) ∧
    1 ≤ retryDelay r ∧ retryDelay r ≤ 6 := by
  refine ⟨?_, by simp [retryDelay], by simp [retryDelay]; omega⟩
  induction n with
  | zero => simp [sendRequestRun]
  | succ m ih => simp [List.replicate_succ, sendRequestRun, ih]

/-- Concrete instance of `C2_retry_behavior`: two transport errors followed
by an application-level RPC error response — the loop retries twice and then
returns the error response to the caller without retrying it. -/
theorem C2_retry_behavior_witness :
    sendRequestRun
        (List.replicate 2 RpcOutcome.transportError ++
          RpcOutcome.response (RpcResult.rpcError 7) :: [RpcOutcome.transportError])
      = some (RpcResult.rpcError 7, 2) ∧
    1 ≤ retryDelay 5 ∧ retryDelay 5 ≤ 6 :=
  C2_retry_behavior 2 5 (by decide) (RpcResult.rpcError 7) [RpcOutcome.transportError]

/-! ### Per-address funding flow (`fund_shard`, lines 77-103)

`fund_shard` builds one signed transaction `tx`, submits it once (binding
`txId` to the response), then loops: sleep 5, poll the receipt of `txId`;
on an empty receipt increment a counter, and when the counter reaches 10
reset it and resubmit the same `tx`, discarding the response.  The loop is
driven by the finite list of poll answers (`true` = non-empty receipt) and
consumes one entry of `resps` — the responses of the resubmissions, which
the code never uses — per resubmission. -/

/-- Observable actions of `fund_shard`: timed waits, receipt polls for a
transaction id, and transaction submissions. -/
inductive FsAction where
  | sleep (t : Nat) : FsAction
  | poll (txId : Nat) : FsAction
  | send (tx : Nat) : FsAction
  deriving DecidableEq

/-- The `while True` poll loop of `fund_shard`, started with counter `cnt`.
Returns the action trace and the value `fund_shard` would return (`none`
when the poll answers are exhausted with no receipt yet). -/
def fundShardLoop (tx txId : Nat) : Nat → List Nat → List Bool → List FsAction × Option Nat
  | _, _, [] => ([], none)
  | cnt, resps, r :: rest =>
    if r then ([FsAction.sleep 5, FsAction.poll txId], some txId)
    else if cnt + 1 = 10 then
      (FsAction.sleep 5 :: FsAction.poll txId :: FsAction.send tx ::
        (fundShardLoop tx txId 0 resps.tail rest).1,
       (fundShardLoop tx txId 0 resps.tail rest).2)
    else
      (FsAction.sleep 5 :: FsAction.poll txId :: (fundShardLoop tx txId (cnt + 1) resps rest).1,
       (fundShardLoop tx txId (cnt + 1) resps rest).2)

/-- `fund_shard` after the nonce fetch and transaction build: the initial
`sendTransaction(tx)` whose response `txId` names the transaction from then
on, followed by the poll loop with counter 0. -/
def fundShard (tx txId : Nat) (resps : List Nat) (polls : List Bool) :
    List FsAction × Option Nat :=
  (FsAction.send tx :: (fundShardLoop tx txId 0 resps polls).1,
   (fundShardLoop tx txId 0 resps polls).2)

theorem fundShardLoop_count_send (tx txId : Nat) :
    ∀ (m cnt : Nat) (resps : List Nat), cnt < 10 →
      ((fundShardLoop tx txId cnt resps (List.replicate m false)).1.count
          (FsAction.send tx)) = (cnt + m) / 10 := by
  intro m
  induction m with
  | zero =>
    intro cnt resps hc
    simp only [List.replicate_zero, fundShardLoop, List.count_nil]
    omega
  | succ m ih =>
    intro cnt resps hc
    simp only [List.replicate_succ, fundShardLoop, if_neg (Bool.false_ne_true)]
    by_cases h10 : cnt + 1 = 10
    · rw [if_pos h10]
      simp only [List.count_cons, List.count_cons]
      rw [ih 0 resps.tail (by omega)]
      simp only [beq_iff_eq]
      have : (FsAction.send tx == FsAction.send tx) = true := by simp
      simp [this]
      omega
    · rw [if_neg h10]
      simp only [List.count_cons]
      rw [ih (cnt + 1) resps (by omega)]
      simp
      omega

theorem fundShardLoop_send_only_tx (tx txId : Nat) :
    ∀ (polls : List Bool) (cnt : Nat) (resps : List Nat) (t : Nat),
      FsAction.send t ∈ (fundShardLoop tx txId cnt resps polls).1 → t = tx := by
  intro polls
  induction polls with
  | nil => intro cnt resps t h; simp [fundShardLoop] at h
  | cons r rest ih =>
    intro cnt resps t h
    simp only [fundShardLoop] at h
    by_cases hr : r = true
    · rw [if_pos hr] at h
      simp at h
    · rw [if_neg hr] at h
      by_cases h10 : cnt + 1 = 10
      · rw [if_pos h10] at h
        simp only [List.mem_cons] at h
        rcases h with h | h | h | h
        · exact absurd h (by simp)
        · exact absurd h (by simp)
        · injection h
        · exact ih 0 resps.tail t h
      · rw [if_neg h10] at h
        simp only [List.mem_cons] at h
        rcases h with h | h | h
        · exact absurd h (by simp)
        · exact absurd h (by simp)
        · exact ih (cnt + 1) resps t h

theorem fundShardLoop_sleep_only_5 (tx txId : Nat) :
    ∀ (polls : List Bool) (cnt : Nat) (resps : List Nat) (d : Nat),
      FsAction.sleep d ∈ (fundShardLoop tx txId cnt resps polls).1 → d = 5 := by
  intro polls
  induction polls with
  | nil => intro cnt resps d h; simp [fundShardLoop] at h
  | cons r rest ih =>
    intro cnt resps d h
    simp only [fundShardLoop] at h
    by_cases hr : r = true
    · rw [if_pos hr] at h
      simp only [List.mem_cons] at h
      rcases h with h | h | h
      · injection h
      · exact absurd h (by simp)
      · simp at h
    · rw [if_neg hr] at h
      by_cases h10 : cnt + 1 = 10
      · rw [if_pos h10] at h
        simp only [List.mem_cons] at h
        rcases h with h | h | h | h
        · injection h
        · exact absurd h (by simp)
        · exact absurd h (by simp)
        · exact ih 0 resps.tail d h
      · rw [if_neg h10] at h
        simp only [List.mem_cons] at h
        rcases h with h | h | h
        · injection h
        · exact absurd h (by simp)
        · exact ih (cnt + 1) resps d h

/-- Counts the receipt polls in a trace. -/
def isPoll : FsAction → Bool
  | FsAction.poll _ => true
  | _ => false

theorem fundShardLoop_poll_count (tx txId : Nat) :
    ∀ (m cnt : Nat) (resps : List Nat),
      ((fundShardLoop tx txId cnt resps (List.replicate m false)).1.countP isPoll) = m := by
  intro m
  induction m with
  | zero => intro cnt resps; simp [fundShardLoop]
  | succ m ih =>
    intro cnt resps
    simp only [List.replicate_succ, fundShardLoop, if_neg (Bool.false_ne_true)]
    by_cases h10 : cnt + 1 = 10
    · rw [if_pos h10]
      simp [List.countP_cons, isPoll, ih 0 resps.tail]
    · rw [if_neg h10]
      simp [List.countP_cons, isPoll, ih (cnt + 1) resps]

/-- Claim C3: along a run of `fund_shard` whose first `m` polls all return an
empty receipt, the receipt is polled exactly `m` times, each poll is preceded
by a 5-unit sleep (every sleep in the trace is 5 units), the transaction is
submitted exactly `1 + m / 10` times (the initial submission plus one
resubmission after every 10 consecutive empty polls — in particular none
before the counter reaches 10, and the counter resets so the pattern repeats),
and every submission sends the identical originally signed transaction `tx`. -/
theorem C3_poll_resubmit_schedule (tx txId m : Nat) (resps : List Nat) :
    ((fundShard tx txId resps (List.replicate m false)).1.count (FsAction.send tx)
      = 1 + m / 10) ∧
    (∀ t, FsAction.send t ∈ (fundShard tx txId resps (List.replicate m false)).1 → t = tx) ∧
    (∀ d, FsAction.sleep d ∈ (fundShard tx txId resps (List.replicate m false)).1 → d = 5) ∧
    ((fundShard tx txId resps (List.replicate m false)).1.countP isPoll = m) := by
  refine ⟨?_, ?_, ?_, ?_⟩
  · simp only [fundShard, List.count_cons]
    rw [fundShardLoop_count_send tx txId m 0 resps (by omega)]
    simp
    omega
  · intro t h
    simp only [fundShard, List.mem_cons] at h
    rcases h with h | h
    · injection h
    · exact fundShardLoop_send_only_tx tx txId _ 0 resps t h
  · intro d h
    simp only [fundShard, List.mem_cons] at h
    rcases h with h | h
    · exact absurd h (by simp)
    · exact fundShardLoop_sleep_only_5 tx txId _ 0 resps d h
  · simp only [fundShard, List.countP_cons]
    rw [fundShardLoop_poll_count tx txId m 0 resps]
    simp [isPoll]

theorem fundShardLoop_poll_only_txId (tx txId : Nat) :
    ∀ (polls : List Bool) (cnt : Nat) (resps : List Nat) (i : Nat),
      FsAction.poll i ∈ (fundShardLoop tx txId cnt resps polls).1 → i = txId := by
  intro polls
  induction polls with
  | nil => intro cnt resps i h; simp [fundShardLoop] at h
  | cons r rest ih =>
    intro cnt resps i h
    simp only [fundShardLoop] at h
    by_cases hr : r = true
    · rw [if_pos hr] at h
      simp only [List.mem_cons] at h
      rcases h with h | h | h
      · exact absurd h (by simp)
      · injection h
      · simp at h
    · rw [if_neg hr] at h
      by_cases h10 : cnt + 1 = 10
      · rw [if_pos h10] at h
        simp only [List.mem_cons] at h
        rcases h with h | h | h | h
        · exact absurd h (by simp)
        · injection h
        · exact absurd h (by simp)
        · exact ih 0 resps.tail i h
      · rw [if_neg h10] at h
        simp only [List.mem_cons] at h
        rcases h with h | h | h
        · exact absurd h (by simp)
        · injection h
        · exact ih (cnt + 1) resps i h

theorem fundShardLoop_returns_txId (tx txId : Nat) :
    ∀ (m cnt : Nat) (resps : List Nat) (rest : List Bool),
      (fundShardLoop tx txId cnt resps (List.replicate m false ++ true :: rest)).2
        = some txId := by
  intro m
  induction m with
  | zero =>
    intro cnt resps rest
    simp [fundShardLoop]
  | succ m ih =>
    intro cnt resps rest
    simp only [List.replicate_succ, List.cons_append, fundShardLoop,
      if_neg (Bool.false_ne_true)]
    by_cases h10 : cnt + 1 = 10
    · rw [if_pos h10]; exact ih 0 resps.tail rest
    · rw [if_neg h10]; exact ih (cnt + 1) resps rest

theorem fundShardLoop_resps_irrelevant (tx txId : Nat) :
    ∀ (polls : List Bool) (cnt : Nat) (resps1 resps2 : List Nat),
      fundShardLoop tx txId cnt resps1 polls = fundShardLoop tx txId cnt resps2 polls := by
  intro polls
  induction polls with
  | nil => intro cnt resps1 resps2; rfl
  | cons r rest ih =>
    intro cnt resps1 resps2
    simp only [fundShardLoop]
    by_cases hr : r = true
    · rw [if_pos hr, if_pos hr]
    · rw [if_neg hr, if_neg hr]
      by_cases h10 : cnt + 1 = 10
      · rw [if_pos h10, if_pos h10, ih 0 resps1.tail resps2.tail]
      · rw [if_neg h10, if_neg h10, ih (cnt + 1) resps1 resps2]

/-- Claim C9: on every terminating run of `fund_shard` (first non-empty
receipt at poll `m + 1`), the returned transaction id is exactly the response
`txId` of the initial `sendTransaction` call, every receipt poll throughout
the loop queries that same id, and the whole run — trace and return value —
is independent of the responses of the later resubmissions, which are
discarded. -/
theorem C9_txid_stability (tx txId : Nat) (resps1 resps2 : List Nat) (m : Nat)
    (rest : List Bool) :
    ((fundShard tx txId resps1 (List.replicate m false ++ true :: rest)).2 = some txId) ∧
    (∀ i, FsAction.poll i ∈ (fundShard tx txId resps1 (List.replicate m false ++ true :: rest)).1
      → i = txId) ∧
    (fundShard tx txId resps1 (List.replicate m false ++ true :: rest)
      = fundShard tx txId resps2 (List.replicate m false ++ true :: rest)) := by
  refine ⟨?_, ?_, ?_⟩
  · simp only [fundShard]
    exact fundShardLoop_returns_txId tx txId m 0 resps1 rest
  · intro i h
    simp only [fundShard, List.mem_cons] at h
    rcases h with h | h
    · exact absurd h (by simp)
    · exact fundShardLoop_poll_only_txId tx txId _ 0 resps1 i h
  · simp only [fundShard, fundShardLoop_resps_irrelevant tx txId _ 0 resps1 resps2]

/-- Concrete instance of `C3_poll_resubmit_schedule`: 25 empty polls give the
initial submission plus 2 resubmissions. -/
theorem C3_poll_resubmit_schedule_witness :
    ((fundShard 1 2 [] (List.replicate 25 false)).1.count (FsAction.send 1)
      = 1 + 25 / 10) ∧
    (∀ t, FsAction.send t ∈ (fundShard 1 2 [] (List.replicate 25 false)).1 → t = 1) ∧
    (∀ d, FsAction.sleep d ∈ (fundShard 1 2 [] (List.replicate 25 false)).1 → d = 5) ∧
    ((fundShard 1 2 [] (List.replicate 25 false)).1.countP isPoll = 25) :=
  C3_poll_resubmit_schedule 1 2 25 []

/-- Concrete instance of `C9_txid_stability`: receipt on the 6th poll; the
flow returns the first submission response 2 whatever the resubmission
responses were. -/
theorem C9_txid_stability_witness :
    ((fundShard 1 2 [3] (List.replicate 5 false ++ true :: [false])).2 = some 2) ∧
    (∀ i, FsAction.poll i ∈ (fundShard 1 2 [3] (List.replicate 5 false ++ true :: [false])).1
      → i = 2) ∧
    (fundShard 1 2 [3] (List.replicate 5 false ++ true :: [false])
      = fundShard 1 2 [4] (List.replicate 5 false ++ true :: [false])) :=
  C9_txid_stability 1 2 [3] [4] 5 [false]

/-! ### Transaction builder (`create_transaction`, lines 61-74)

`EvmTransaction`, `Address` and key handling live in `quarkchain.core` /
`quarkchain.evm.transactions`, which are outside `src/`; their data is
modelled as plain records and the signing primitive is modelled from the
spec. -/

/-- A quarkchain address: 20-byte recipient (as its integer value) plus the
4-byte full shard id routing tag. -/
structure QAddress where
  recipient : Nat
  fullShardId : Nat
  deriving DecidableEq

/-- A signing key; `valid` is the key's fitness for signing. -/
structure SignKey where
  keyBytes : Nat
  valid : Bool
  deriving DecidableEq

/-- The unsigned field content of an `EvmTransaction`, exactly the keyword
arguments `create_transaction` passes to the constructor. -/
structure TxContent where
  nonce : Nat
  gasprice : Nat
  startgas : Nat
  to_ : Nat
  value : Int
  data : List Nat
  fromFullShardId : Nat
  toFullShardId : Nat
  networkId : Nat
  deriving DecidableEq

/-- A signature value, determined by what was signed and by which key. -/
structure Sig where
  sigContent : TxContent
  sigKey : Nat
  deriving DecidableEq

/-- Modelled from the spec: `EvmTransaction.sign` (in
`quarkchain.evm.transactions`, not under `src/`) is "deterministic given
inputs — no randomness, no side effects, fails only if the supplied key is
invalid for signing"; the signature is a function of the transaction content
and the key. -/
def signTx (c : TxContent) (k : SignKey) : Option Sig :=
  if k.valid then some ⟨c, k.keyBytes⟩ else none

/-- A signed transaction: content plus signature. -/
structure SignedTx where
  content : TxContent
  sig : Sig
  deriving DecidableEq

/-- `create_transaction(address, key, nonce, to, networkId, amount)`:
builds the `EvmTransaction` with the literal field values of lines 62-72 and
signs it with `key`. -/
def create_transaction (address : QAddress) (key : SignKey) (nonce : Nat)
    (to_ : QAddress) (networkId : Nat) (amount : Int) : Option SignedTx :=
  let evmTx : TxContent :=
    { nonce := nonce
      gasprice := 1
      startgas := 1000000
      to_ := to_.recipient
      value := amount * 10 ^ 18
      data := []
      fromFullShardId := address.fullShardId
      toFullShardId := to_.fullShardId
      networkId := networkId }
  (signTx evmTx key).map (fun s => ⟨evmTx, s⟩)

/-- Claim C5: every transaction built by `create_transaction` has value
exactly `amount * 10 ^ 18` (exact integer arithmetic), gas price 1, gas
limit 1000000, empty data payload, and carries the sender's and the
recipient's full-shard-id routing tags. -/
theorem C5_transaction_fields (address : QAddress) (key : SignKey) (nonce : Nat)
    (to_ : QAddress) (networkId : Nat) (amount : Int) (tx : SignedTx)
    (h : create_transaction address key nonce to_ networkId amount = some tx) :
    tx.content.value = amount * 10 ^ 18 ∧
    tx.content.gasprice = 1 ∧
    tx.content.startgas = 1000000 ∧
    tx.content.data = [] ∧
    tx.content.fromFullShardId = address.fullShardId ∧
    tx.content.toFullShardId = to_.fullShardId := by
  simp only [create_transaction, signTx] at h
  by_cases hk : key.valid
  · rw [if_pos hk] at h
    simp only [Option.map_some', Option.some.injEq] at h
    subst h
    exact ⟨rfl, rfl, rfl, rfl, rfl, rfl⟩
  · rw [if_neg hk] at h
    simp at h

/-- Concrete instance of `C5_transaction_fields` at a valid key, sender shard
tag 1, recipient shard tag 2, amount 5. -/
theorem C5_transaction_fields_witness :
    (SignedTx.mk ⟨0, 1, 1000000, 200, 5 * 10 ^ 18, [], 1, 2, 3⟩
        ⟨⟨0, 1, 1000000, 200, 5 * 10 ^ 18, [], 1, 2, 3⟩, 77⟩).content.value
      = 5 * 10 ^ 18 ∧
    (SignedTx.mk ⟨0, 1, 1000000, 200, 5 * 10 ^ 18, [], 1, 2, 3⟩
        ⟨⟨0, 1, 1000000, 200, 5 * 10 ^ 18, [], 1, 2, 3⟩, 77⟩).content.gasprice = 1 ∧
    (SignedTx.mk ⟨0, 1, 1000000, 200, 5 * 10 ^ 18, [], 1, 2, 3⟩
        ⟨⟨0, 1, 1000000, 200, 5 * 10 ^ 18, [], 1, 2, 3⟩, 77⟩).content.startgas = 1000000 ∧
    (SignedTx.mk ⟨0, 1, 1000000, 200, 5 * 10 ^ 18, [], 1, 2, 3⟩
        ⟨⟨0, 1, 1000000, 200, 5 * 10 ^ 18, [], 1, 2, 3⟩, 77⟩).content.data = [] ∧
    (SignedTx.mk ⟨0, 1, 1000000, 200, 5 * 10 ^ 18, [], 1, 2, 3⟩
        ⟨⟨0, 1, 1000000, 200, 5 * 10 ^ 18, [], 1, 2, 3⟩, 77⟩).content.fromFullShardId
      = (QAddress.mk 100 1).fullShardId ∧
    (SignedTx.mk ⟨0, 1, 1000000, 200, 5 * 10 ^ 18, [], 1, 2, 3⟩
        ⟨⟨0, 1, 1000000, 200, 5 * 10 ^ 18, [], 1, 2, 3⟩, 77⟩).content.toFullShardId
      = (QAddress.mk 200 2).fullShardId :=
  C5_transaction_fields ⟨100, 1⟩ ⟨77, true⟩ 0 ⟨200, 2⟩ 3 5
    (SignedTx.mk ⟨0, 1, 1000000, 200, 5 * 10 ^ 18, [], 1, 2, 3⟩
      ⟨⟨0, 1, 1000000, 200, 5 * 10 ^ 18, [], 1, 2, 3⟩, 77⟩) rfl

/-- Claim C8: `create_transaction` is deterministic — two invocations with
equal inputs produce identical signed transactions (hence byte-identical
serializations), with no randomness and no side effects in the model — and
it fails exactly when the supplied key is invalid for signing. -/
theorem C8_builder_deterministic (a1 a2 : QAddress) (k1 k2 : SignKey)
    (n1 n2 : Nat) (t1 t2 : QAddress) (ni1 ni2 : Nat) (am1 am2 : Int)
    (ha : a1 = a2) (hk : k1 = k2) (hn : n1 = n2) (ht : t1 = t2)
    (hni : ni1 = ni2) (ham : am1 = am2) :
    create_transaction a1 k1 n1 t1 ni1 am1 = create_transaction a2 k2 n2 t2 ni2 am2 ∧
    (create_transaction a1 k1 n1 t1 ni1 am1 = none ↔ k1.valid = false) := by
  subst ha hk hn ht hni ham
  refine ⟨rfl, ?_⟩
  simp only [create_transaction, signTx]
  by_cases hk : k1.valid
  · rw [if_pos hk]; simp [hk]
  · rw [if_neg hk]; simp_all

/-- Concrete instance of `C8_builder_deterministic`. -/
theorem C8_builder_deterministic_witness :
    create_transaction ⟨100, 1⟩ ⟨77, false⟩ 0 ⟨200, 2⟩ 3 5
      = create_transaction ⟨100, 1⟩ ⟨77, false⟩ 0 ⟨200, 2⟩ 3 5 ∧
    (create_transaction ⟨100, 1⟩ ⟨77, false⟩ 0 ⟨200, 2⟩ 3 5 = none ↔
      (SignKey.mk 77 false).valid = false) :=
  C8_builder_deterministic ⟨100, 1⟩ ⟨100, 1⟩ ⟨77, false⟩ ⟨77, false⟩ 0 0
    ⟨200, 2⟩ ⟨200, 2⟩ 3 3 5 5 rfl rfl rfl rfl rfl rfl

/-! ### Recipient parsing in the fan-out (`fund`, lines 132-143)

Each popped address goes through `Address.createFrom(addr[2:])` inside
`try`/`except`; on failure the entry is logged and `continue` skips it, so
no funding flow is launched for it.  `Address.createFrom` lives in
`quarkchain.core`, outside `src/`. -/

/-- Modelled from the spec: `Address.createFrom` (in `quarkchain.core`, not
under `src/`) parses a 48-hex-character serialization — 20 recipient bytes
followed by the 4-byte full shard id — into an address, failing on any
malformed string. -/
def createFrom? (s : List Char) : Option QAddress :=
  if s.length = 48 then
    (hexToNat? s).map (fun n => ⟨n / 2 ^ 32, n % 2 ^ 32⟩)
  else none

/-- The funding flows launched for one batch (`fund`, lines 131-143): for
each popped address in order, `Address.createFrom(addr[2:])` is attempted;
on failure the entry is dropped (`continue`), otherwise the flow for the
parsed recipient is appended to the batch's futures. -/
def launchedFlows (toFund : List (List Char)) : List (List Char × QAddress) :=
  toFund.filterMap (fun a => (createFrom? (a.drop 2)).map (fun r => (a, r)))

/-- Claim C7: an address that fails recipient parsing is dropped from the
batch — the launched flows (and hence the batch's result set) are exactly
those of the surrounding entries, unchanged — it is never launched itself,
and the sibling flows of the same batch are unaffected. -/
theorem C7_parse_failure_dropped (pre post : List (List Char)) (bad : List Char)
    (h : createFrom? (bad.drop 2) = none) :
    launchedFlows (pre ++ bad :: post) = launchedFlows pre ++ launchedFlows post ∧
    (∀ p ∈ launchedFlows (pre ++ bad :: post), p.1 ≠ bad) := by
  constructor
  · simp [launchedFlows, List.filterMap_append, List.filterMap_cons, h]
  · intro p hp hbad
    subst hbad
    simp only [launchedFlows, List.mem_filterMap] at hp
    obtain ⟨a, _, ha⟩ := hp
    rw [Option.map_eq_some'] at ha
    obtain ⟨r, har, hpr⟩ := ha
    have ha1 : a = p.1 := by rw [← hpr]
    rw [ha1, h] at har
    cases har

/-- Concrete instance of `C7_parse_failure_dropped`: the malformed address
`"0xzz"` is dropped while its well-formed siblings (48 hex characters after
the `"0x"` prefix) are parsed and kept. -/
theorem C7_parse_failure_dropped_witness :
    launchedFlows ([("0x".data ++ List.replicate 48 '1'), "0xzz".data,
        ("0x".data ++ List.replicate 48 '2')])
      = launchedFlows [("0x".data ++ List.replicate 48 '1')] ++
          launchedFlows [("0x".data ++ List.replicate 48 '2')] ∧
    (∀ p ∈ launchedFlows ([("0x".data ++ List.replicate 48 '1'), "0xzz".data,
        ("0x".data ++ List.replicate 48 '2')]), p.1 ≠ "0xzz".data) :=
  C7_parse_failure_dropped [("0x".data ++ List.replicate 48 '1')]
    [("0x".data ++ List.replicate 48 '2')] ("0xzz".data) (by decide)

/-! ### Per-shard fan-out (`fund`, lines 115-145)

`byShard` is a `defaultdict(list)` keyed by shard; Python dict iteration
follows key insertion order, so it is embedded as an ordered association
list with one entry per key, new keys appended at the end.  Each round of
the `while True` loop pops at most one address (`list.pop()`, i.e. the last
element) from each shard queue, and the round's flows are gathered before
the next round starts. -/

/-- `defaultdict(list)`-style append: `d[k].append(a)` — the existing group
of `k` grows at the end, a missing key is appended with a fresh singleton
group. -/
def appendGroup {κ α : Type} [DecidableEq κ] :
    List (κ × List α) → κ → α → List (κ × List α)
  | [], k, a => [(k, [a])]
  | (k', l) :: rest, k, a =>
    if k' = k then (k', l ++ [a]) :: rest else (k', l) :: appendGroup rest k a

/-- The `byShard` construction (`fund`, lines 117-119): each address is
appended to the queue of its shard; a hex-parse failure of `int(addr[-8:],
16)` raises and aborts (`none`). -/
def buildByShard : List (List Char) → Nat → List (Nat × List (List Char)) →
    Option (List (Nat × List (List Char)))
  | [], _, g => some g
  | a :: rest, shardSize, g =>
    match shardOf? a shardSize with
    | none => none
    | some s => buildByShard rest shardSize (appendGroup g s a)

/-- One fan-out round (`fund`, lines 123-126): walk the shard queues in
order and pop the last element of each non-empty queue; returns the batch
`toFund` (with the shard each entry came from) and the updated queues. -/
def popRound {α : Type} : List (Nat × List α) → List (Nat × α) × List (Nat × List α)
  | [] => ([], [])
  | (s, q) :: rest =>
    match q.getLast? with
    | none => ((popRound rest).1, (s, q) :: (popRound rest).2)
    | some a => ((s, a) :: (popRound rest).1, (s, q.dropLast) :: (popRound rest).2)

/-- The `while True` fan-out loop (`fund`, lines 122-145) as the sequence of
batches it launches, one list entry per round; the loop exits when a round
pops nothing.  `fuel` bounds the recursion; any fuel at least the total
queue size reproduces the loop exactly. -/
def roundsAux {α : Type} : Nat → List (Nat × List α) → List (List (Nat × α))
  | 0, _ => []
  | fuel + 1, qs =>
    if (popRound qs).1.isEmpty then []
    else (popRound qs).1 :: roundsAux fuel (popRound qs).2

/-- Total number of queued addresses. -/
def totalQueued {α : Type} (qs : List (Nat × List α)) : Nat :=
  (qs.map (fun p => p.2.length)).sum

/-- All fan-out batches of one amount group. -/
def rounds {α : Type} (qs : List (Nat × List α)) : List (List (Nat × α)) :=
  roundsAux (totalQueued qs) qs

theorem appendGroup_keys {κ α : Type} [DecidableEq κ]
    (g : List (κ × List α)) (k : κ) (a : α) :
    ((appendGroup g k a).map Prod.fst = g.map Prod.fst ∧ k ∈ g.map Prod.fst) ∨
    ((appendGroup g k a).map Prod.fst = g.map Prod.fst ++ [k] ∧ k ∉ g.map Prod.fst) := by
  induction g with
  | nil => right; exact ⟨rfl, by simp⟩
  | cons p rest ih =>
    obtain ⟨k', l⟩ := p
    by_cases hk : k' = k
    · left
      exact ⟨by simp [appendGroup, hk], by simp [hk]⟩
    · rcases ih with ⟨ih1, ih2⟩ | ⟨ih1, ih2⟩
      · left
        exact ⟨by simp [appendGroup, hk, ih1], by simp [ih2]⟩
      · right
        constructor
        · simp [appendGroup, hk, ih1]
        · simp only [List.map_cons, List.mem_cons]
          rintro (h | h)
          · exact hk h.symm
          · exact ih2 h

theorem appendGroup_keys_nodup {κ α : Type} [DecidableEq κ]
    {g : List (κ × List α)} (h : (g.map Prod.fst).Nodup) (k : κ) (a : α) :
    ((appendGroup g k a).map Prod.fst).Nodup := by
  rcases appendGroup_keys g k a with ⟨h1, _⟩ | ⟨h1, h2⟩
  · rw [h1]; exact h
  · rw [h1, List.nodup_append]
    refine ⟨h, List.nodup_singleton k, ?_⟩
    intro x hx hx1
    simp only [List.mem_singleton] at hx1
    subst hx1
    exact h2 hx

theorem buildByShard_keys_nodup :
    ∀ (addrs : List (List Char)) (shardSize : Nat)
      (g out : List (Nat × List (List Char))),
      (g.map Prod.fst).Nodup → buildByShard addrs shardSize g = some out →
      (out.map Prod.fst).Nodup := by
  intro addrs
  induction addrs with
  | nil =>
    intro shardSize g out hg h
    simp only [buildByShard, Option.some.injEq] at h
    subst h; exact hg
  | cons a rest ih =>
    intro shardSize g out hg h
    simp only [buildByShard] at h
    cases hs : shardOf? a shardSize with
    | none => rw [hs] at h; cases h
    | some s =>
      rw [hs] at h
      exact ih shardSize (appendGroup g s a) out (appendGroup_keys_nodup hg s a) h

theorem popRound_batch_keys_sublist {α : Type} (qs : List (Nat × List α)) :
    ((popRound qs).1.map Prod.fst).Sublist (qs.map Prod.fst) := by
  induction qs with
  | nil => simp [popRound]
  | cons p rest ih =>
    obtain ⟨s, q⟩ := p
    simp only [popRound]
    cases q.getLast? with
    | none =>
      simp only [List.map_cons]
      exact ih.cons s
    | some a =>
      simp only [List.map_cons]
      exact ih.cons₂ s

theorem popRound_rest_keys {α : Type} (qs : List (Nat × List α)) :
    (popRound qs).2.map Prod.fst = qs.map Prod.fst := by
  induction qs with
  | nil => simp [popRound]
  | cons p rest ih =>
    obtain ⟨s, q⟩ := p
    simp only [popRound]
    cases q.getLast? with
    | none => simp [ih]
    | some a => simp [ih]

theorem roundsAux_batch_keys_nodup {α : Type} :
    ∀ (fuel : Nat) (qs : List (Nat × List α)),
      (qs.map Prod.fst).Nodup →
      ∀ batch ∈ roundsAux fuel qs, (batch.map Prod.fst).Nodup := by
  intro fuel
  induction fuel with
  | zero => intro qs hq batch hb; simp [roundsAux] at hb
  | succ f ih =>
    intro qs hq batch hb
    simp only [roundsAux] at hb
    by_cases he : (popRound qs).1.isEmpty
    · rw [if_pos he] at hb; simp at hb
    · rw [if_neg he] at hb
      simp only [List.mem_cons] at hb
      rcases hb with hb | hb
      · subst hb
        exact (popRound_batch_keys_sublist qs).nodup hq
      · apply ih (popRound qs).2 _ batch hb
        rw [popRound_rest_keys]
        exact hq

theorem nodup_keys_countP_le_one {α : Type} (batch : List (Nat × α)) (s : Nat)
    (h : (batch.map Prod.fst).Nodup) :
    batch.countP (fun e => decide (e.1 = s)) ≤ 1 := by
  induction batch with
  | nil => simp
  | cons p rest ih =>
    simp only [List.map_cons, List.nodup_cons] at h
    obtain ⟨hp, hrest⟩ := h
    by_cases hps : p.1 = s
    · rw [List.countP_cons_of_pos _ _ (by simpa using hps)]
      have : rest.countP (fun e => decide (e.1 = s)) = 0 := by
        rw [List.countP_eq_zero]
        intro e he
        simp only [decide_eq_true_eq]
        intro hes
        apply hp
        have : p.1 = e.1 := by rw [hps, hes]
        rw [this]
        exact List.mem_map_of_mem Prod.fst he
      omega
    · rw [List.countP_cons_of_neg _ _ (by simpa using hps)]
      exact ih hrest

/-- Claim C4: in the fan-out of `fund`, each round pops at most one pending
address per shard queue, so every launched batch contains at most one entry
per shard (its shard keys are duplicate-free); since the batches are
gathered one after another, the funding flows of a single shard proceed
strictly sequentially across rounds.  The hypothesis — duplicate-free shard
keys — holds for every `byShard` mapping the code builds. -/
theorem C4_one_per_shard_per_round (addrs : List (List Char)) (shardSize : Nat)
    (qs : List (Nat × List (List Char)))
    (hbuild : buildByShard addrs shardSize [] = some qs)
    (batch : List (Nat × List Char)) (hb : batch ∈ rounds qs) (s : Nat) :
    batch.countP (fun e => decide (e.1 = s)) ≤ 1 ∧ (batch.map Prod.fst).Nodup := by
  have hq : (qs.map Prod.fst).Nodup :=
    buildByShard_keys_nodup addrs shardSize [] qs (by simp) hbuild
  have hnd : (batch.map Prod.fst).Nodup :=
    roundsAux_batch_keys_nodup (totalQueued qs) qs hq batch hb
  exact ⟨nodup_keys_countP_le_one batch s hnd, hnd⟩

/-- Concrete instance of `C4_one_per_shard_per_round`: two addresses `"a8"`
and `"ac"` both map to shard 0 of 4 (`0xa8 & 3 = 0xac & 3 = 0`); the fan-out
funds them in two singleton batches, one per round — never together. -/
theorem C4_one_per_shard_per_round_witness :
    (([(0, "a8".data)] : List (Nat × List Char)).countP (fun e => decide (e.1 = 0)) ≤ 1) ∧
    (([(0, "a8".data)] : List (Nat × List Char)).map Prod.fst).Nodup :=
  C4_one_per_shard_per_round ["a8".data, "ac".data] 4 [(0, ["a8".data, "ac".data])]
    (by decide) [(0, "a8".data)]
    (by
      have : rounds [(0, ["a8".data, "ac".data])]
          = [[(0, "ac".data)], [(0, "a8".data)]] := by decide
      rw [this]
      simp)
    0

/-! ### Input loader (`read_addr`, lines 152-159)

`dict([line.split() for line in f.readlines()])` raises (fatal) on any line
whose `split()` does not yield exactly two tokens, and on duplicate keys the
later pair silently overwrites the earlier one, the entry keeping its
original position (CPython dict semantics).  `byAmount` is again a
`defaultdict(list)` keyed by `int(amount)`, whose parse failure also
raises. -/

/-- Python `str.split()` with no separator: split on runs of whitespace,
discarding empty tokens.  Accumulator variant; `acc` holds the current token
reversed. -/
def splitWSAux : List Char → List Char → List (List Char)
  | [], acc => if acc.isEmpty then [] else [acc.reverse]
  | c :: rest, acc =>
    if c.isWhitespace then
      if acc.isEmpty then splitWSAux rest [] else acc.reverse :: splitWSAux rest []
    else splitWSAux rest (c :: acc)

/-- Python `line.split()`. -/
def splitWS (s : List Char) : List (List Char) := splitWSAux s []

/-- Python `f.readlines()`: split after every newline, keeping the newline
at the end of each line; a last unterminated line is kept too. -/
def readlinesAux : List Char → List Char → List (List Char)
  | [], acc => if acc.isEmpty then [] else [acc.reverse]
  | c :: rest, acc =>
    if c = '\n' then ('\n' :: acc).reverse :: readlinesAux rest []
    else readlinesAux rest (c :: acc)

/-- Python `f.readlines()` on the whole file. -/
def readlines (file : List Char) : List (List Char) := readlinesAux file []

/-- One element of the `dict(...)` initializer: a line must split into
exactly two tokens `(addr, amount)`, anything else raises `ValueError`. -/
def parseLine (l : List Char) : Option (List Char × List Char) :=
  match splitWS l with
  | [a, b] => some (a, b)
  | _ => none

/-- All lines of the initializer; the first malformed line aborts. -/
def parseLines : List (List Char) → Option (List (List Char × List Char))
  | [] => some []
  | l :: rest =>
    match parseLine l, parseLines rest with
    | some p, some ps => some (p :: ps)
    | _, _ => none

/-- One CPython dict insertion `m[k] = v`: an existing key keeps its
position and gets the new value, a new key is appended at the end. -/
def dictUpdate (m : List (List Char × List Char)) (k v : List Char) :
    List (List Char × List Char) :=
  if m.any (fun p => decide (p.1 = k)) then
    m.map (fun p => if p.1 = k then (k, v) else p)
  else m ++ [(k, v)]

/-- Python `dict(pairs)`: left-to-right insertion. -/
def pyDict (pairs : List (List Char × List Char)) : List (List Char × List Char) :=
  pairs.foldl (fun m p => dictUpdate m p.1 p.2) []

/-- One decimal digit. -/
def decDigit? (c : Char) : Option Nat :=
  if 48 ≤ c.toNat ∧ c.toNat ≤ 57 then some (c.toNat - 48) else none

/-- Accumulate one character of a base-10 literal. -/
def decStep (acc : Option Nat) (c : Char) : Option Nat :=
  match acc, decDigit? c with
  | some a, some d => some (a * 10 + d)
  | _, _ => none

/-- Value of a nonempty all-decimal-digit string. -/
def decToNat? (s : List Char) : Option Nat :=
  match s with
  | [] => none
  | _ => s.foldl decStep (some 0)

/-- Python `int(s)`: an optional minus sign followed by decimal digits;
anything else raises (`none`). -/
def decToInt? (s : List Char) : Option Int :=
  match s with
  | '-' :: rest => (decToNat? rest).map (fun n => -(n : Int))
  | _ => (decToNat? s).map (fun n => (n : Int))

/-- The `byAmount` loop of `read_addr`: walk the dict items in order and
append each address to the group of its parsed amount; `int(amount)`
raising aborts (`none`). -/
def groupItems : List (List Char × List Char) → List (Int × List (List Char)) →
    Option (List (Int × List (List Char)))
  | [], g => some g
  | (a, v) :: rest, g =>
    match decToInt? v with
    | none => none
    | some n => groupItems rest (appendGroup g n a)

/-- `read_addr(filepath)` on the file's contents: build the dict of
`(addr, amount)` lines, then group addresses by integer amount. -/
def read_addr (file : List Char) : Option (List (Int × List (List Char))) :=
  match parseLines (readlines file) with
  | none => none
  | some pairs => groupItems (pyDict pairs) []

theorem parseLine_none_of_length_ne_two {l : List Char}
    (h : (splitWS l).length ≠ 2) : parseLine l = none := by
  unfold parseLine
  match hs : splitWS l with
  | [] => rfl
  | [a] => rfl
  | [a, b] => rw [hs] at h; simp at h
  | a :: b :: c :: rest => rfl

theorem parseLines_none_of_mem {lines : List (List Char)} {l : List Char}
    (hl : l ∈ lines) (h : parseLine l = none) : parseLines lines = none := by
  induction lines with
  | nil => simp at hl
  | cons hd rest ih =>
    simp only [List.mem_cons] at hl
    rcases hl with hl | hl
    · subst hl
      simp [parseLines, h]
    · simp only [parseLines]
      rw [ih hl]
      cases parseLine hd <;> rfl

/-- Claim C6, counterexample: an address string repeated with conflicting
amounts does not make `read_addr` fail — the later line silently overwrites
the earlier one (standard dict semantics) and the run proceeds. -/
theorem C6_duplicate_counterexample :
    read_addr ("0xabc 5\n0xabc 7\n".data) = some [(7, ["0xabc".data])] ∧
    read_addr ("0xabc 5\n0xabc 7\n".data) ≠ none := by
  constructor
  · decide
  · decide

/-- Claim C6 (amended): the loader maps a well-formed two-token-per-line
file to the grouping from amount to addresses (the claim's example file
included), and fails fatally on any line that does not split into exactly
two tokens; but when an address repeats with conflicting amounts it does
not fail — the last occurrence silently wins. -/
theorem C6_loader_behavior (file l : List Char) (hl : l ∈ readlines file)
    (h2 : (splitWS l).length ≠ 2) :
    read_addr file = none ∧
    read_addr ("0xabc 5\n0xdef 10\n".data)
      = some [(5, ["0xabc".data]), (10, ["0xdef".data])] ∧
    read_addr ("0xabc 5\n0xabc 7\n".data) = some [(7, ["0xabc".data])] := by
  refine ⟨?_, by decide, by decide⟩
  unfold read_addr
  rw [parseLines_none_of_mem hl (parseLine_none_of_length_ne_two h2)]

/-- Concrete instance of `C6_loader_behavior`: a one-token line is fatal. -/
theorem C6_loader_behavior_witness :
    read_addr ("0xabc\n".data) = none ∧
    read_addr ("0xabc 5\n0xdef 10\n".data)
      = some [(5, ["0xabc".data]), (10, ["0xdef".data])] ∧
    read_addr ("0xabc 5\n0xabc 7\n".data) = some [(7, ["0xabc".data])] :=
  C6_loader_behavior ("0xabc\n".data) ("0xabc\n".data) (by decide) (by decide)

/-! ### Uniqueness of beneficiaries (`read_addr`, lines 152-159) -/

/-- The amount token of the last line whose address token is `a`. -/
def lastAmount : List (List Char × List Char) → List Char → Option (List Char)
  | [], _ => none
  | (k, v) :: rest, a =>
    match lastAmount rest a with
    | some w => some w
    | none => if a = k then some v else none

theorem dictUpdate_mem (m : List (List Char × List Char)) (k v a w : List Char) :
    ((a, w) ∈ dictUpdate m k v) ↔ ((a = k ∧ w = v) ∨ (a ≠ k ∧ (a, w) ∈ m)) := by
  unfold dictUpdate
  by_cases hmem : m.any (fun p => decide (p.1 = k))
  · rw [if_pos hmem]
    simp only [List.mem_map]
    constructor
    · rintro ⟨p, hp, hpe⟩
      by_cases hpk : p.1 = k
      · rw [if_pos hpk] at hpe
        left
        exact ⟨(congrArg Prod.fst hpe).symm, (congrArg Prod.snd hpe).symm⟩
      · rw [if_neg hpk] at hpe
        right
        subst hpe
        exact ⟨hpk, hp⟩
    · rintro (⟨ha, hw⟩ | ⟨hak, hm⟩)
      · subst ha hw
        rw [List.any_eq_true] at hmem
        obtain ⟨p, hp, hpk⟩ := hmem
        simp only [decide_eq_true_eq] at hpk
        exact ⟨p, hp, by rw [if_pos hpk]⟩
      · exact ⟨(a, w), hm, by rw [if_neg hak]⟩
  · rw [if_neg hmem]
    simp only [List.mem_append, List.mem_singleton]
    constructor
    · rintro (h | h)
      · right
        refine ⟨?_, h⟩
        intro hak
        subst hak
        apply hmem
        rw [List.any_eq_true]
        exact ⟨(a, w), h, by simp⟩
      · left
        exact ⟨congrArg Prod.fst h, congrArg Prod.snd h⟩
    · rintro (⟨ha, hw⟩ | ⟨hak, hm⟩)
      · subst ha hw; right; rfl
      · left; exact hm

theorem foldl_dictUpdate_mem :
    ∀ (pairs m : List (List Char × List Char)) (a w : List Char),
      ((a, w) ∈ pairs.foldl (fun m p => dictUpdate m p.1 p.2) m) ↔
        (lastAmount pairs a = some w ∨ (lastAmount pairs a = none ∧ (a, w) ∈ m)) := by
  intro pairs
  induction pairs with
  | nil => intro m a w; simp [lastAmount]
  | cons p rest ih =>
    intro m a w
    obtain ⟨k, v⟩ := p
    simp only [List.foldl_cons]
    rw [ih (dictUpdate m k v) a w]
    simp only [lastAmount]
    cases hrest : lastAmount rest a with
    | some w0 => simp
    | none =>
      simp only [Option.some.injEq, false_or, true_and, false_and,
        reduceCtorEq]
      rw [dictUpdate_mem]
      by_cases hak : a = k
      · subst hak
        simp [eq_comm]
      · rw [if_neg hak]
        simp [hak]

theorem dictUpdate_keys_nodup {m : List (List Char × List Char)}
    (h : (m.map Prod.fst).Nodup) (k v : List Char) :
    ((dictUpdate m k v).map Prod.fst).Nodup := by
  unfold dictUpdate
  by_cases hmem : m.any (fun p => decide (p.1 = k))
  · rw [if_pos hmem]
    have heq : (m.map (fun p => if p.1 = k then (k, v) else p)).map Prod.fst
        = m.map Prod.fst := by
      rw [List.map_map]
      apply List.map_congr_left
      intro p _
      by_cases hpk : p.1 = k
      · simp [hpk]
      · simp [hpk]
    rw [heq]
    exact h
  · rw [if_neg hmem, List.map_append, List.nodup_append]
    refine ⟨h, by simp, ?_⟩
    intro x hx hx1
    simp only [List.map_cons, List.map_nil, List.mem_singleton] at hx1
    subst hx1
    apply hmem
    rw [List.any_eq_true]
    simp only [List.mem_map] at hx
    obtain ⟨p, hp, hpk⟩ := hx
    exact ⟨p, hp, by simp [hpk]⟩

theorem foldl_dictUpdate_keys_nodup :
    ∀ (pairs m : List (List Char × List Char)), (m.map Prod.fst).Nodup →
      (((pairs.foldl (fun m p => dictUpdate m p.1 p.2) m)).map Prod.fst).Nodup := by
  intro pairs
  induction pairs with
  | nil => intro m h; exact h
  | cons p rest ih =>
    intro m h
    simp only [List.foldl_cons]
    exact ih (dictUpdate m p.1 p.2) (dictUpdate_keys_nodup h p.1 p.2)

theorem pyDict_keys_nodup (pairs : List (List Char × List Char)) :
    ((pyDict pairs).map Prod.fst).Nodup :=
  foldl_dictUpdate_keys_nodup pairs [] (by simp)

/-- Number of times address `a` occurs across all amount groups. -/
def occurrences (g : List (Int × List (List Char))) (a : List Char) : Nat :=
  (g.map (fun p => p.2.countP (fun x => decide (x = a)))).sum

/-- Address `a` belongs to the group of amount `n`. -/
def inGroup (g : List (Int × List (List Char))) (n : Int) (a : List Char) : Prop :=
  ∃ l, (n, l) ∈ g ∧ a ∈ l

theorem appendGroup_occurrences (g : List (Int × List (List Char))) (n : Int)
    (b a : List Char) :
    occurrences (appendGroup g n b) a =
      occurrences g a + (if b = a then 1 else 0) := by
  induction g with
  | nil =>
    simp only [appendGroup, occurrences, List.map_cons, List.map_nil,
      List.sum_cons, List.sum_nil]
    by_cases hba : b = a <;> simp [hba, List.countP_cons]
  | cons p rest ih =>
    obtain ⟨k, l⟩ := p
    by_cases hk : k = n
    · simp only [appendGroup, if_pos hk, occurrences, List.map_cons,
        List.sum_cons, List.countP_append]
      by_cases hba : b = a
      · simp [hba, List.countP_cons, occurrences]
        try omega
      · simp [hba, List.countP_cons, occurrences]
        try omega
    · simp only [appendGroup, if_neg hk, occurrences, List.map_cons, List.sum_cons]
      have := ih
      simp only [occurrences] at this
      rw [this]
      omega

theorem groupItems_occurrences :
    ∀ (items : List (List Char × List Char)) (g out : List (Int × List (List Char))),
      groupItems items g = some out → ∀ a,
      occurrences out a
        = occurrences g a + (items.map Prod.fst).countP (fun x => decide (x = a)) := by
  intro items
  induction items with
  | nil =>
    intro g out h a
    simp only [groupItems, Option.some.injEq] at h
    subst h
    simp
  | cons p rest ih =>
    obtain ⟨b, v⟩ := p
    intro g out h a
    simp only [groupItems] at h
    cases hv : decToInt? v with
    | none => rw [hv] at h; cases h
    | some n =>
      rw [hv] at h
      rw [ih (appendGroup g n b) out h a, appendGroup_occurrences]
      simp only [List.map_cons, List.countP_cons]
      by_cases hba : b = a
      · simp [hba]
        try omega
      · simp [hba]
        try omega

theorem appendGroup_inGroup_self (g : List (Int × List (List Char))) (n : Int)
    (a : List Char) : inGroup (appendGroup g n a) n a := by
  induction g with
  | nil => exact ⟨[a], by simp [appendGroup], by simp⟩
  | cons p rest ih =>
    obtain ⟨k, l⟩ := p
    by_cases hk : k = n
    · subst hk
      exact ⟨l ++ [a], by simp [appendGroup], by simp⟩
    · obtain ⟨l0, h1, h2⟩ := ih
      exact ⟨l0, by simp [appendGroup, hk, h1], h2⟩

theorem appendGroup_inGroup_mono {g : List (Int × List (List Char))} {n : Int}
    {b : List Char} (k : Int) (a : List Char) (h : inGroup g n b) :
    inGroup (appendGroup g k a) n b := by
  induction g with
  | nil => obtain ⟨l0, h1, _⟩ := h; simp at h1
  | cons p rest ih =>
    obtain ⟨k', l⟩ := p
    obtain ⟨l0, h1, h2⟩ := h
    simp only [List.mem_cons] at h1
    by_cases hk : k' = k
    · rcases h1 with h1 | h1
      · obtain ⟨hn, hl⟩ : n = k' ∧ l0 = l := by
          constructor
          · exact congrArg Prod.fst h1
          · exact congrArg Prod.snd h1
        subst hn hl
        exact ⟨l0 ++ [a], by simp [appendGroup, hk], by simp [h2]⟩
      · exact ⟨l0, by simp [appendGroup, hk, h1], h2⟩
    · rcases h1 with h1 | h1
      · obtain ⟨hn, hl⟩ : n = k' ∧ l0 = l := by
          constructor
          · exact congrArg Prod.fst h1
          · exact congrArg Prod.snd h1
        subst hn hl
        exact ⟨l0, by simp [appendGroup, hk], h2⟩
      · obtain ⟨l1, h3, h4⟩ := ih ⟨l0, h1, h2⟩
        exact ⟨l1, by simp [appendGroup, hk, h3], h4⟩

theorem groupItems_inGroup_mono :
    ∀ (items : List (List Char × List Char)) (g out : List (Int × List (List Char))),
      groupItems items g = some out → ∀ (n : Int) (b : List Char),
      inGroup g n b → inGroup out n b := by
  intro items
  induction items with
  | nil =>
    intro g out h n b hg
    simp only [groupItems, Option.some.injEq] at h
    subst h
    exact hg
  | cons p rest ih =>
    obtain ⟨c, v⟩ := p
    intro g out h n b hg
    simp only [groupItems] at h
    cases hv : decToInt? v with
    | none => rw [hv] at h; cases h
    | some m =>
      rw [hv] at h
      exact ih (appendGroup g m c) out h n b (appendGroup_inGroup_mono m c hg)

theorem groupItems_mem_inGroup :
    ∀ (items : List (List Char × List Char)) (g out : List (Int × List (List Char))),
      groupItems items g = some out → ∀ (a v : List Char), (a, v) ∈ items →
      ∃ n, decToInt? v = some n ∧ inGroup out n a := by
  intro items
  induction items with
  | nil => intro g out h a v hm; simp at hm
  | cons p rest ih =>
    obtain ⟨c, w⟩ := p
    intro g out h a v hm
    simp only [groupItems] at h
    cases hv : decToInt? w with
    | none => rw [hv] at h; cases h
    | some m =>
      rw [hv] at h
      simp only [List.mem_cons] at hm
      rcases hm with hm | hm
      · obtain ⟨ha, hw⟩ : a = c ∧ v = w := by
          constructor
          · exact congrArg Prod.fst hm
          · exact congrArg Prod.snd hm
        subst ha hw
        exact ⟨m, hv, groupItems_inGroup_mono rest (appendGroup g m a) out h m a
          (appendGroup_inGroup_self g m a)⟩
      · exact ih (appendGroup g m c) out h a v hm

theorem nodup_countP_eq_one {l : List (List Char)} (h : l.Nodup) {a : List Char}
    (ha : a ∈ l) : l.countP (fun x => decide (x = a)) = 1 := by
  induction l with
  | nil => simp at ha
  | cons b rest ih =>
    simp only [List.nodup_cons] at h
    obtain ⟨hb, hrest⟩ := h
    simp only [List.mem_cons] at ha
    by_cases hba : b = a
    · subst hba
      rw [List.countP_cons_of_pos _ _ (by simp)]
      have : rest.countP (fun x => decide (x = b)) = 0 := by
        rw [List.countP_eq_zero]
        intro x hx
        simp only [decide_eq_true_eq]
        intro hxb
        subst hxb
        exact hb hx
      omega
    · rw [List.countP_cons_of_neg _ _ (by simp [hba])]
      rcases ha with ha | ha
      · exact absurd ha.symm hba
      · exact ih hrest ha

/-- Claim C10: in the loader's output each distinct address string of a
well-formed input file contributes exactly one beneficiary entry across all
amount groups — duplicate lines collapse into the dict — and that entry sits
in the group of the integer amount of the address's last occurrence. -/
theorem C10_unique_beneficiary (file : List Char)
    (pairs : List (List Char × List Char))
    (byAmount : List (Int × List (List Char))) (a v : List Char)
    (hp : parseLines (readlines file) = some pairs)
    (h : read_addr file = some byAmount)
    (hv : lastAmount pairs a = some v) :
    occurrences byAmount a = 1 ∧
    ∃ n, decToInt? v = some n ∧ inGroup byAmount n a := by
  unfold read_addr at h
  rw [hp] at h
  have hmem : (a, v) ∈ pyDict pairs := by
    unfold pyDict
    rw [foldl_dictUpdate_mem]
    left
    exact hv
  constructor
  · rw [groupItems_occurrences (pyDict pairs) [] byAmount h a]
    have hkey : a ∈ (pyDict pairs).map Prod.fst := List.mem_map_of_mem Prod.fst hmem
    rw [nodup_countP_eq_one (pyDict_keys_nodup pairs) hkey]
    simp [occurrences]
  · exact groupItems_mem_inGroup (pyDict pairs) [] byAmount h a v hmem

/-- Concrete instance of `C10_unique_beneficiary`: the file
`"ab 5\nab 7\ncd 5\n"` repeats address `"ab"` with conflicting amounts; the
loader keeps exactly one entry for `"ab"` and it carries amount 7, the
amount of the last occurrence. -/
theorem C10_unique_beneficiary_witness :
    occurrences [(7, ["ab".data]), (5, ["cd".data])] ("ab".data) = 1 ∧
    ∃ n, decToInt? ("7".data) = some n ∧
      inGroup [(7, ["ab".data]), (5, ["cd".data])] n ("ab".data) :=
  C10_unique_beneficiary ("ab 5\nab 7\ncd 5\n".data)
    [("ab".data, "5".data), ("ab".data, "7".data), ("cd".data, "5".data)]
    [(7, ["ab".data]), (5, ["cd".data])] ("ab".data) ("7".data)
    (by decide) (by decide) (by decide)

end FundTestnet
